import Mathlib

/-!
Verification of the PAI-RAG ingestion pipeline against its specification.

This file gives a shallow embedding of the ingestion-relevant logic of the
repository (four Python source files) and proves or refutes the frozen
claims about it:

- `pai_rag/data/rag_dataloader.py` : node building and QA extraction
  (`RagDataLoader._get_nodes`, `aload`);
- `pai_rag/modules/index/my_vector_store_index.py` : batched asynchronous
  vector-store insertion under a semaphore
  (`MyVectorStoreIndex._async_add_nodes_to_index` and helpers);
- `pai_rag/core/rag_service.py` : configuration hot-reload, the task status
  ledger, and the service facade (`RagService`);
- `pai_rag/app/api/query.py` : the HTTP surface (context only).

Python dictionaries are embedded as association lists with the update
semantics of dict assignment (replace in place, else append).  Strings that
the code manipulates character by character (the status log) are embedded
as lists of characters.  The concurrent insertion phase is embedded as a
labelled transition system whose schedules range over all interleavings
allowed by the semaphore and the gather join.
-/

namespace PaiRag

/-- Characters of a Python string. -/
abbrev Chars := List Char

/-! ## Python dict embedding (string keyed association lists) -/

/-- Lookup in a dict: value of the first pair whose key matches. -/
def dictGet (m : List (String × String)) (k : String) : Option String :=
  (m.find? (fun p => p.1 == k)).map Prod.snd

/-- Python dict assignment `m[k] = v`: replace the value in place when the
key is present, otherwise append the new pair (insertion order semantics). -/
def dictSet (m : List (String × String)) (k v : String) : List (String × String) :=
  if m.any (fun p => p.1 = k) then
    m.map (fun p => if p.1 = k then (k, v) else p)
  else m ++ [(k, v)]

theorem dictSet_map_of_not_mem (m : List (String × String)) (k v : String)
    (h : m.any (fun p => p.1 = k) = false) :
    m.map (fun p => if p.1 = k then (k, v) else p) = m := by
  induction m with
  | nil => rfl
  | cons x xs ih =>
    simp only [List.any_cons, Bool.or_eq_false_iff] at h
    simp only [List.map_cons, ih h.2, List.cons.injEq, and_true]
    rw [if_neg]
    intro hx
    rw [hx] at h
    simp at h

theorem dictSet_any_key (m : List (String × String)) (k v : String) :
    (m.map (fun p => if p.1 = k then (k, v) else p)).any (fun p => p.1 = k)
      = m.any (fun p => p.1 = k) := by
  induction m with
  | nil => rfl
  | cons x xs ih =>
    simp only [List.map_cons, List.any_cons, ih]
    by_cases hx : x.1 = k
    · simp [hx]
    · simp [hx]

theorem dictSet_map_map (m : List (String × String)) (k v w : String) :
    (m.map (fun p => if p.1 = k then (k, v) else p)).map
        (fun p => if p.1 = k then (k, w) else p)
      = m.map (fun p => if p.1 = k then (k, w) else p) := by
  induction m with
  | nil => rfl
  | cons x xs ih =>
    simp only [List.map_cons, ih, List.cons.injEq, and_true]
    by_cases hx : x.1 = k
    · simp [hx]
    · simp [hx]

/-- Overwriting the same key twice keeps only the second value. -/
theorem dictSet_dictSet (m : List (String × String)) (k v w : String) :
    dictSet (dictSet m k v) k w = dictSet m k w := by
  cases h : m.any (fun p => p.1 = k) with
  | true =>
    simp only [dictSet, h, if_true]
    rw [if_pos (by rw [dictSet_any_key]; exact h)]
    exact dictSet_map_map m k v w
  | false =>
    have h1 : dictSet m k v = m ++ [(k, v)] := by simp [dictSet, h]
    have h2 : dictSet m k w = m ++ [(k, w)] := by simp [dictSet, h]
    have h3 : (m ++ [(k, v)]).any (fun p => p.1 = k) = true := by
      simp [List.any_append]
    rw [h1, h2]
    simp only [dictSet, h3, if_true]
    rw [List.map_append, dictSet_map_of_not_mem m k w h]
    simp

/-! ## Nodes (llama_index TextNode, fields used by the code) -/

/-- A text node: identifier, text payload, metadata mapping and the two
exclusion lists.  Constructing a `TextNode` snapshots the metadata mapping
(the pydantic model validates the dict into a fresh dict), so later
mutation of the dict the caller passed in does not alter the node. -/
structure TextNode where
  id_ : String
  text : String
  metadata : List (String × String)
  excluded_embed_metadata_keys : List String
  excluded_llm_metadata_keys : List String
deriving DecidableEq, Repr

/-! ## QA extraction (`RagDataLoader._get_nodes`, QA block)

The Python loop is, per parent node and extractor pass:

  q_cnt = 0
  metadata = node.metadata            -- aliases the parent dict
  for q, a in qa_extraction_result.items():
      metadata["answer"] = a          -- mutates the parent dict in place
      qa_nodes.append(TextNode(id_=..., text=q, metadata=metadata))
      q_cnt += 1

The embedding threads the mutable dict explicitly: `qaPairsLoop` returns
the synthesized nodes together with the final value of the parent dict. -/

/-- One parent node, one extraction result: iterate the question/answer
pairs, mutating the shared metadata dict and snapshotting it into each
synthesized node.  Returns (synthesized nodes, final parent metadata). -/
def qaPairsLoop (parentId : String) (cnt : Nat) (md : List (String × String)) :
    List (String × String) → List TextNode × List (String × String)
  | [] => ([], md)
  | (q, a) :: rest =>
    let md1 := dictSet md "answer" a
    let n : TextNode := ⟨parentId ++ "_" ++ toString cnt, q, md1, [], []⟩
    let r := qaPairsLoop parentId (cnt + 1) md1 rest
    (n :: r.1, r.2)

/-- One extractor pass over all parent nodes (index-aligned extraction
results).  Returns (all synthesized QA nodes in order, the parent nodes
with their metadata dicts as mutated by the pass). -/
def qaPass : List TextNode → List (List (String × String)) →
    List TextNode × List TextNode
  | [], _ => ([], [])
  | n :: ns, results =>
    let r := qaPairsLoop n.id_ 0 n.metadata (results.headD [])
    let rest := qaPass ns results.tail
    (r.1 ++ rest.1, { n with metadata := r.2 } :: rest.2)

/-- After all extractor passes the code appends the exclusion markers to
every synthesized QA node (answer hidden from embedding, question hidden
from generation). -/
def markQaNode (n : TextNode) : TextNode :=
  { n with
    excluded_embed_metadata_keys := n.excluded_embed_metadata_keys ++ ["answer"],
    excluded_llm_metadata_keys := n.excluded_llm_metadata_keys ++ ["question"] }

/-- The full QA block: fold the extractor passes over the (mutating) parent
nodes, then mark and append all synthesized nodes. -/
def qaExtendNodes (nodes : List TextNode)
    (allResults : List (List (List (String × String)))) : List TextNode :=
  go nodes allResults []
where
  go (nodes : List TextNode) (rs : List (List (List (String × String))))
      (acc : List TextNode) : List TextNode :=
    match rs with
    | [] => nodes ++ acc.map markQaNode
    | r :: rest =>
      let p := qaPass nodes r
      go p.2 rest (acc ++ p.1)

theorem qaPairsLoop_get (parentId : String) :
    ∀ (pairs : List (String × String)) (md : List (String × String))
      (c j : Nat) (q a : String), pairs.get? j = some (q, a) →
      (qaPairsLoop parentId c md pairs).1.get? j =
        some ⟨parentId ++ "_" ++ toString (c + j), q,
              dictSet md "answer" a, [], []⟩ := by
  intro pairs
  induction pairs with
  | nil => intro md c j q a h; simp at h
  | cons p rest ih =>
    intro md c j q a h
    obtain ⟨q0, a0⟩ := p
    cases j with
    | zero =>
      simp only [List.get?] at h
      cases h
      simp [qaPairsLoop]
    | succ j' =>
      simp only [List.get?] at h
      have := ih (dictSet md "answer" a0) (c + 1) j' q a h
      simp only [qaPairsLoop, List.get?]
      rw [this, dictSet_dictSet]
      have hc : c + 1 + j' = c + (j' + 1) := by omega
      rw [hc]

theorem qaPairsLoop_parent (parentId : String) :
    ∀ (pairs : List (String × String)) (md : List (String × String))
      (c : Nat) (q a : String), pairs.getLast? = some (q, a) →
      (qaPairsLoop parentId c md pairs).2 = dictSet md "answer" a := by
  intro pairs
  induction pairs with
  | nil => intro md c q a h; simp at h
  | cons p rest ih =>
    intro md c q a h
    obtain ⟨q0, a0⟩ := p
    cases rest with
    | nil =>
      simp only [List.getLast?_singleton, Option.some.injEq] at h
      cases h
      simp [qaPairsLoop]
    | cons p1 rest1 =>
      rw [List.getLast?_cons_cons] at h
      have step : (qaPairsLoop parentId c md ((q0, a0) :: p1 :: rest1)).2
          = (qaPairsLoop parentId (c + 1) (dictSet md "answer" a0) (p1 :: rest1)).2 := rfl
      rw [step, ih (dictSet md "answer" a0) (c + 1) q a h, dictSet_dictSet]

/-- C1, claim as stated, refuted at a concrete input: with one parent node
carrying metadata [(k, v)] and one extraction pass returning two pairs, the
parent node coming out of the pass carries a mutated metadata dict (it
gained the answer of the last pair), because the loop writes through the
alias `metadata = node.metadata`.  The claim said the parent metadata is
not mutated. -/
theorem C1_counterexample :
    (qaPass [⟨"p", "t", [("k", "v")], [], []⟩] [[("Q1", "A1"), ("Q2", "A2")]]).2
      ≠ [⟨"p", "t", [("k", "v")], [], []⟩]
    ∧ (qaPass [⟨"p", "t", [("k", "v")], [], []⟩] [[("Q1", "A1"), ("Q2", "A2")]]).2
      = [⟨"p", "t", [("k", "v"), ("answer", "A2")], [], []⟩] := by
  constructor
  · decide
  · decide

/-- C1 (amended): for every parent node and every pair (q, a) at ordinal j
returned by an extraction pass, the pass synthesizes a node whose text is
q, whose identifier is the parent identifier followed by an underscore and
the ordinal, and whose metadata is a snapshot of the parent metadata with
the key answer set to a (so two QA nodes of the same parent carry their own
respective answers); however the parent metadata dict itself is mutated in
place and ends up holding the answer of the last pair.  The third conjunct
ties the per-parent loop to the whole extraction pass. -/
theorem C1_qa_synthesis (parent : TextNode) (pairs : List (String × String))
    (nodes : List TextNode) (results : List (List (String × String))) :
    (∀ j q a, pairs.get? j = some (q, a) →
        (qaPairsLoop parent.id_ 0 parent.metadata pairs).1.get? j =
          some ⟨parent.id_ ++ "_" ++ toString j, q,
                dictSet parent.metadata "answer" a, [], []⟩)
    ∧ (∀ q a, pairs.getLast? = some (q, a) →
        (qaPairsLoop parent.id_ 0 parent.metadata pairs).2 =
          dictSet parent.metadata "answer" a)
    ∧ qaPass (parent :: nodes) (pairs :: results) =
        ((qaPairsLoop parent.id_ 0 parent.metadata pairs).1 ++ (qaPass nodes results).1,
         { parent with metadata := (qaPairsLoop parent.id_ 0 parent.metadata pairs).2 }
           :: (qaPass nodes results).2) := by
  refine ⟨?_, ?_, rfl⟩
  · intro j q a h
    have := qaPairsLoop_get parent.id_ pairs parent.metadata 0 j q a h
    simpa using this
  · intro q a h
    exact qaPairsLoop_parent parent.id_ pairs parent.metadata 0 q a h

/-- C1 witness: the amended theorem evaluated on one parent with metadata
[(k, v)] and the pass result [(Q1, A1), (Q2, A2)]. -/
theorem C1_qa_synthesis_witness :
    ([("Q1", "A1"), ("Q2", "A2")] : List (String × String)).get? 1 = some ("Q2", "A2")
    ∧ (qaPairsLoop "p" 0 [("k", "v")] [("Q1", "A1"), ("Q2", "A2")]).1.get? 1 =
        some ⟨"p" ++ "_" ++ toString 1, "Q2", dictSet [("k", "v")] "answer" "A2", [], []⟩
    ∧ (qaPairsLoop "p" 0 [("k", "v")] [("Q1", "A1"), ("Q2", "A2")]).2 =
        dictSet [("k", "v")] "answer" "A2" := by
  refine ⟨by decide, ?_, ?_⟩
  · exact (C1_qa_synthesis ⟨"p", "t", [("k", "v")], [], []⟩
      [("Q1", "A1"), ("Q2", "A2")] [] []).1 1 "Q2" "A2" (by decide)
  · exact (C1_qa_synthesis ⟨"p", "t", [("k", "v")], [], []⟩
      [("Q1", "A1"), ("Q2", "A2")] [] []).2.1 "Q2" "A2" (by decide)

/-! ## Batched asynchronous insertion
(`MyVectorStoreIndex._async_add_nodes_to_index`, `_postprocess_all_batch`,
`_process_one_batch`, and the persistence step of `RagDataLoader.aload`).

`iter_batch` is the batching iterator from llama_index used by the code
with size 100: successive chunks of the given size, last chunk possibly
smaller.  The concurrent phase is a labelled transition system: one worker
per batch, a worker acquires the semaphore (at which point its single
`async_add` call is issued), completes (the call returns, the semaphore is
released), and the orchestrating coroutine performs the storage-context
persist only once every worker is done (asyncio.gather is a full join),
followed by the keyword-index update of `aload`. -/

/-- Successive chunks of the given positive size (size 0 never occurs:
the code always batches with size 100). -/
def iter_batch {α : Type} (l : List α) (size : Nat) : List (List α) :=
  match l with
  | [] => []
  | x :: xs => (x :: xs).take size :: iter_batch (xs.drop (size - 1)) size
termination_by l.length
decreasing_by
  simp only [List.length_cons, List.length_drop]
  omega

/-- Number of batches the insertion produces for the given nodes. -/
def numBatches {α : Type} (l : List α) : Nat := (iter_batch l 100).length

theorem iter_batch_join {α : Type} {s : Nat} (hs : 0 < s) :
    ∀ (l : List α), (iter_batch l s).flatten = l := by
  have H : ∀ (n : Nat) (l : List α), l.length ≤ n → (iter_batch l s).flatten = l := by
    intro n
    induction n with
    | zero =>
      intro l hl
      have hnil : l = [] := List.eq_nil_of_length_eq_zero (Nat.le_zero.mp hl)
      subst hnil
      rw [iter_batch]
      simp
    | succ n ih =>
      intro l hl
      cases l with
      | nil => rw [iter_batch]; simp
      | cons x xs =>
        rw [iter_batch, List.flatten_cons]
        have hrec : (xs.drop (s - 1)).length ≤ n := by
          simp only [List.length_drop]
          simp only [List.length_cons] at hl
          omega
        rw [ih _ hrec]
        cases s with
        | zero => omega
        | succ t =>
          simp only [List.take_succ_cons, Nat.succ_sub_one, List.cons_append,
            List.take_append_drop]
  intro l
  exact H l.length l (Nat.le_refl _)

theorem iter_batch_mem {α : Type} {s : Nat} (hs : 0 < s) :
    ∀ (l b : List α), b ∈ iter_batch l s → b ≠ [] ∧ b.length ≤ s := by
  have H : ∀ (n : Nat) (l b : List α), l.length ≤ n →
      b ∈ iter_batch l s → b ≠ [] ∧ b.length ≤ s := by
    intro n
    induction n with
    | zero =>
      intro l b hl hb
      have hnil : l = [] := List.eq_nil_of_length_eq_zero (Nat.le_zero.mp hl)
      subst hnil
      rw [iter_batch] at hb
      simp at hb
    | succ n ih =>
      intro l b hl hb
      cases l with
      | nil => rw [iter_batch] at hb; simp at hb
      | cons x xs =>
        rw [iter_batch] at hb
        rcases List.mem_cons.mp hb with h | h
        · subst h
          constructor
          · cases s with
            | zero => omega
            | succ t => simp [List.take_succ_cons]
          · simp only [List.length_take]
            exact Nat.min_le_left s (x :: xs).length
        · apply ih (xs.drop (s - 1)) b _ h
          simp only [List.length_drop]
          simp only [List.length_cons] at hl
          omega
  intro l b hb
  exact H l.length l b (Nat.le_refl _) hb

theorem iter_batch_full {α : Type} {s : Nat} (hs : 0 < s) :
    ∀ (l : List α) (i : Nat), i + 1 < (iter_batch l s).length →
      ∃ b, (iter_batch l s).get? i = some b ∧ b.length = s := by
  have H : ∀ (n : Nat) (l : List α) (i : Nat), l.length ≤ n →
      i + 1 < (iter_batch l s).length →
      ∃ b, (iter_batch l s).get? i = some b ∧ b.length = s := by
    intro n
    induction n with
    | zero =>
      intro l i hl hb
      have hnil : l = [] := List.eq_nil_of_length_eq_zero (Nat.le_zero.mp hl)
      subst hnil
      rw [iter_batch] at hb
      simp at hb
    | succ n ih =>
      intro l i hl hb
      cases l with
      | nil => rw [iter_batch] at hb; simp at hb
      | cons x xs =>
        rw [iter_batch] at hb ⊢
        cases i with
        | zero =>
          refine ⟨(x :: xs).take s, rfl, ?_⟩
          simp only [List.length_cons, Nat.add_lt_add_iff_left] at hb
          have hne : xs.drop (s - 1) ≠ [] := by
            intro hdrop
            rw [hdrop, iter_batch] at hb
            simp at hb
          have hlen : s - 1 < xs.length := by
            by_contra hcon
            exact hne (List.drop_eq_nil_of_le (by omega))
          simp only [List.length_take, List.length_cons]
          omega
        | succ j =>
          simp only [List.get?]
          apply ih (xs.drop (s - 1)) j
          · simp only [List.length_drop]
            simp only [List.length_cons] at hl
            omega
          · simp only [List.length_cons] at hb
            omega
  intro l i hb
  exact H l.length l i (Nat.le_refl _) hb

/-- A nonempty node list that fits into one batch produces exactly that
single batch. -/
theorem iter_batch_small {α : Type} (l : List α) (s : Nat) (h0 : l ≠ [])
    (hs : 0 < s) (h : l.length ≤ s) : iter_batch l s = [l] := by
  cases l with
  | nil => exact absurd rfl h0
  | cons x xs =>
    rw [iter_batch]
    have hdrop : xs.drop (s - 1) = [] := by
      apply List.drop_eq_nil_of_le
      simp only [List.length_cons] at h
      omega
    rw [hdrop]
    have hnil : iter_batch ([] : List α) s = [] := by rw [iter_batch]
    rw [hnil]
    have htake : (x :: xs).take s = x :: xs := List.take_of_length_le h
    rw [htake]

/-- Lifecycle of one batch worker coroutine: waiting to acquire the
semaphore, holding it (its `async_add` call is in flight), or done (the
call returned and the semaphore slot was released). -/
inductive Phase
  | pending
  | holding
  | done
deriving DecidableEq, Repr

/-- State of one asynchronous insert call: one worker per batch, plus the
flags recording whether the storage context was persisted and whether the
keyword index was updated. -/
structure IndexerState where
  workers : List Phase
  persisted : Bool
  keywordUpdated : Bool
deriving DecidableEq, Repr

/-- Observable events of the insertion phase.  `acquire i` is the moment
batch i takes a semaphore slot and issues its single vector-store
`async_add` call; `complete i` is that call returning (slot released). -/
inductive Label
  | acquire (i : Nat)
  | complete (i : Nat)
  | persist
  | keywordUpdate
deriving DecidableEq, Repr

/-- Number of workers currently holding the semaphore. -/
def countHolding : List Phase → Nat
  | [] => 0
  | Phase.holding :: rest => countHolding rest + 1
  | _ :: rest => countHolding rest

/-- Batches currently in flight against the vector-store backend. -/
def inFlight (s : IndexerState) : Nat := countHolding s.workers

/-- One scheduler step.  An acquire is only enabled while fewer than 10
workers hold the semaphore (`asyncio.Semaphore(10)`); the persist is only
enabled once every worker is done (`asyncio.gather` full join); the
keyword-index update of `aload` follows the persist. -/
inductive Step : IndexerState → Label → IndexerState → Prop
  | acquire {s : IndexerState} {i : Nat}
      (hp : s.workers.get? i = some Phase.pending)
      (hsem : inFlight s < 10) :
      Step s (Label.acquire i) { s with workers := s.workers.set i Phase.holding }
  | complete {s : IndexerState} {i : Nat}
      (hh : s.workers.get? i = some Phase.holding) :
      Step s (Label.complete i) { s with workers := s.workers.set i Phase.done }
  | persist {s : IndexerState}
      (hall : ∀ p ∈ s.workers, p = Phase.done)
      (hnp : s.persisted = false) :
      Step s Label.persist { s with persisted := true }
  | keywordUpdate {s : IndexerState}
      (hp : s.persisted = true)
      (hk : s.keywordUpdated = false) :
      Step s Label.keywordUpdate { s with keywordUpdated := true }

/-- Executions: reflexive-transitive closure of `Step`, recording the trace. -/
inductive Exec : IndexerState → List Label → IndexerState → Prop
  | nil {s : IndexerState} : Exec s [] s
  | cons {s s1 s2 : IndexerState} {l : Label} {ls : List Label} :
      Step s l s1 → Exec s1 ls s2 → Exec s (l :: ls) s2

/-- Initial state of one insert call: one pending worker per batch of 100
nodes, nothing persisted yet. -/
def initState {α : Type} (nodes : List α) : IndexerState :=
  ⟨List.replicate (numBatches nodes) Phase.pending, false, false⟩

/-- Occurrences of a label in a trace. -/
def countLabel (l : Label) : List Label → Nat
  | [] => 0
  | x :: xs => countLabel l xs + (if x = l then 1 else 0)

theorem countLabel_pos_mem : ∀ (tr : List Label) (l : Label),
    0 < countLabel l tr → l ∈ tr := by
  intro tr l h
  induction tr with
  | nil => simp [countLabel] at h
  | cons x xs ih =>
    by_cases hx : x = l
    · rw [hx]; exact List.mem_cons_self _ _
    · simp only [countLabel, hx, if_false, Nat.add_zero] at h
      exact List.mem_cons_of_mem _ (ih h)

theorem get?_some_mem : ∀ (l : List Phase) (i : Nat) (b : Phase),
    l.get? i = some b → b ∈ l := by
  intro l
  induction l with
  | nil => intro i b h; simp at h
  | cons x xs ih =>
    intro i b h
    cases i with
    | zero =>
      simp only [List.get?_cons_zero, Option.some.injEq] at h
      rw [h]; exact List.mem_cons_self _ _
    | succ j =>
      simp only [List.get?_cons_succ] at h
      exact List.mem_cons_of_mem _ (ih j b h)

theorem get?_some_lt : ∀ (l : List Phase) (i : Nat) (b : Phase),
    l.get? i = some b → i < l.length := by
  intro l
  induction l with
  | nil => intro i b h; simp at h
  | cons x xs ih =>
    intro i b h
    cases i with
    | zero => simp
    | succ j =>
      simp only [List.get?_cons_succ] at h
      have := ih j b h
      simp only [List.length_cons]
      omega

theorem get?_set_self : ∀ (l : List Phase) (i : Nat) (b : Phase),
    i < l.length → (l.set i b).get? i = some b := by
  intro l
  induction l with
  | nil => intro i b h; simp at h
  | cons x xs ih =>
    intro i b h
    cases i with
    | zero => rfl
    | succ j =>
      simp only [List.set_cons_succ, List.get?_cons_succ]
      apply ih
      simp only [List.length_cons] at h
      omega

theorem get?_set_other : ∀ (l : List Phase) (i j : Nat) (b : Phase),
    i ≠ j → (l.set i b).get? j = l.get? j := by
  intro l
  induction l with
  | nil => intro i j b h; simp
  | cons x xs ih =>
    intro i j b h
    cases i with
    | zero =>
      cases j with
      | zero => exact absurd rfl h
      | succ j' => rfl
    | succ i' =>
      cases j with
      | zero => rfl
      | succ j' =>
        simp only [List.set_cons_succ, List.get?_cons_succ]
        exact ih i' j' b (fun he => h (by rw [he]))

theorem countHolding_set_acquire : ∀ (l : List Phase) (i : Nat),
    l.get? i = some Phase.pending →
    countHolding (l.set i Phase.holding) = countHolding l + 1 := by
  intro l
  induction l with
  | nil => intro i h; simp at h
  | cons x xs ih =>
    intro i h
    cases i with
    | zero =>
      simp only [List.get?_cons_zero, Option.some.injEq] at h
      subst h
      simp [List.set_cons_zero, countHolding]
    | succ j =>
      simp only [List.get?_cons_succ] at h
      have hih := ih j h
      cases x <;> simp only [List.set_cons_succ, countHolding] <;> omega

theorem countHolding_set_complete : ∀ (l : List Phase) (i : Nat),
    l.get? i = some Phase.holding →
    countHolding (l.set i Phase.done) + 1 = countHolding l := by
  intro l
  induction l with
  | nil => intro i h; simp at h
  | cons x xs ih =>
    intro i h
    cases i with
    | zero =>
      simp only [List.get?_cons_zero, Option.some.injEq] at h
      subst h
      simp [List.set_cons_zero, countHolding]
    | succ j =>
      simp only [List.get?_cons_succ] at h
      have hih := ih j h
      cases x <;> simp only [List.set_cons_succ, countHolding] <;> omega

theorem countHolding_replicate_pending (n : Nat) :
    countHolding (List.replicate n Phase.pending) = 0 := by
  induction n with
  | zero => rfl
  | succ m ih => simp [List.replicate_succ, countHolding, ih]

theorem replicate_pending_get? (n i : Nat) :
    (List.replicate n Phase.pending).get? i =
      if i < n then some Phase.pending else none := by
  induction n generalizing i with
  | zero => simp
  | succ m ih =>
    cases i with
    | zero => simp [List.replicate_succ]
    | succ j =>
      simp only [List.replicate_succ, List.get?_cons_succ, ih j]
      by_cases hj : j < m
      · rw [if_pos hj, if_pos (by omega)]
      · rw [if_neg hj, if_neg (by omega)]

theorem step_inFlight_le {s s1 : IndexerState} {l : Label}
    (hst : Step s l s1) (h : inFlight s ≤ 10) : inFlight s1 ≤ 10 := by
  cases hst with
  | acquire hp hsem =>
    show countHolding (s.workers.set _ Phase.holding) ≤ 10
    rw [countHolding_set_acquire _ _ hp]
    exact hsem
  | complete hh =>
    show countHolding (s.workers.set _ Phase.done) ≤ 10
    have hcc := countHolding_set_complete s.workers _ hh
    simp only [inFlight] at h
    omega
  | persist hall hnp => exact h
  | keywordUpdate hp hk => exact h

theorem exec_inFlight_le {s0 s : IndexerState} {tr : List Label}
    (hex : Exec s0 tr s) (h0 : inFlight s0 ≤ 10) : inFlight s ≤ 10 := by
  induction hex with
  | nil => exact h0
  | cons hst _ ih => exact ih (step_inFlight_le hst h0)

theorem step_workers_length {s s1 : IndexerState} {l : Label}
    (hst : Step s l s1) : s1.workers.length = s.workers.length := by
  cases hst with
  | acquire hp hsem => exact List.length_set _ _ _
  | complete hh => exact List.length_set _ _ _
  | persist hall hnp => rfl
  | keywordUpdate hp hk => rfl

theorem exec_workers_length {s0 s : IndexerState} {tr : List Label}
    (hex : Exec s0 tr s) : s.workers.length = s0.workers.length := by
  induction hex with
  | nil => rfl
  | cons hst _ ih => rw [ih, step_workers_length hst]


/-- Per-worker bookkeeping relation: the phase of worker i at the start and
end of an execution determines how many acquire i and complete i events the
trace holds. -/
def PhaseBook (s0 sE : IndexerState) (tr : List Label) (i : Nat) : Prop :=
  (sE.workers.get? i = s0.workers.get? i
      ∧ countLabel (Label.acquire i) tr = 0 ∧ countLabel (Label.complete i) tr = 0)
  ∨ (s0.workers.get? i = some Phase.pending ∧ sE.workers.get? i = some Phase.holding
      ∧ countLabel (Label.acquire i) tr = 1 ∧ countLabel (Label.complete i) tr = 0)
  ∨ (s0.workers.get? i = some Phase.pending ∧ sE.workers.get? i = some Phase.done
      ∧ countLabel (Label.acquire i) tr = 1 ∧ countLabel (Label.complete i) tr = 1)
  ∨ (s0.workers.get? i = some Phase.holding ∧ sE.workers.get? i = some Phase.done
      ∧ countLabel (Label.acquire i) tr = 0 ∧ countLabel (Label.complete i) tr = 1)

/-- A step that does not touch worker i and whose label is neither
acquire i nor complete i lifts the bookkeeping across the step. -/
theorem phaseBook_lift {sA s1 s2 : IndexerState} {l : Label} {ls : List Label} {i : Nat}
    (h1 : s1.workers.get? i = sA.workers.get? i)
    (hla : (if l = Label.acquire i then 1 else 0) = 0)
    (hlc : (if l = Label.complete i then 1 else 0) = 0)
    (ih : PhaseBook s1 s2 ls i) : PhaseBook sA s2 (l :: ls) i := by
  have hca : countLabel (Label.acquire i) (l :: ls) = countLabel (Label.acquire i) ls := by
    show countLabel (Label.acquire i) ls + _ = _
    rw [hla, Nat.add_zero]
  have hcc : countLabel (Label.complete i) (l :: ls) = countLabel (Label.complete i) ls := by
    show countLabel (Label.complete i) ls + _ = _
    rw [hlc, Nat.add_zero]
  rcases ih with ⟨ha, hb, hc⟩ | ⟨ha, hb, hc, hd⟩ | ⟨ha, hb, hc, hd⟩ | ⟨ha, hb, hc, hd⟩
  · left
    exact ⟨by rw [ha, h1], by rw [hca]; exact hb, by rw [hcc]; exact hc⟩
  · right; left
    exact ⟨by rw [← h1]; exact ha, hb, by rw [hca]; exact hc, by rw [hcc]; exact hd⟩
  · right; right; left
    exact ⟨by rw [← h1]; exact ha, hb, by rw [hca]; exact hc, by rw [hcc]; exact hd⟩
  · right; right; right
    exact ⟨by rw [← h1]; exact ha, hb, by rw [hca]; exact hc, by rw [hcc]; exact hd⟩

theorem exec_phase {s0 sE : IndexerState} {tr : List Label}
    (hex : Exec s0 tr sE) (i : Nat) : PhaseBook s0 sE tr i := by
  induction hex with
  | nil => left; exact ⟨rfl, rfl, rfl⟩
  | @cons sA s1 s2 l ls hst hrest ih =>
    cases hst with
    | @acquire j hp hsem =>
      by_cases hij : j = i
      · subst hij
        have hlt : j < sA.workers.length := get?_some_lt _ _ _ hp
        have h1 : (sA.workers.set j Phase.holding).get? j = some Phase.holding :=
          get?_set_self _ _ _ hlt
        have hca : countLabel (Label.acquire j) (Label.acquire j :: ls)
            = countLabel (Label.acquire j) ls + 1 := by
          show countLabel (Label.acquire j) ls + _ = _
          rw [if_pos rfl]
        have hcc : countLabel (Label.complete j) (Label.acquire j :: ls)
            = countLabel (Label.complete j) ls := by
          show countLabel (Label.complete j) ls + _ = _
          simp
        rcases ih with ⟨ha, hb, hc⟩ | ⟨ha, hb, hc, hd⟩ | ⟨ha, hb, hc, hd⟩ | ⟨ha, hb, hc, hd⟩
        · right; left
          refine ⟨hp, ?_, ?_, ?_⟩
          · rw [ha]; exact h1
          · rw [hca, hb]
          · rw [hcc]; exact hc
        · rw [h1] at ha; simp at ha
        · rw [h1] at ha; simp at ha
        · right; right; left
          refine ⟨hp, hb, ?_, ?_⟩
          · rw [hca, hc]
          · rw [hcc]; exact hd
      · apply phaseBook_lift (get?_set_other _ _ _ _ hij) _ _ ih
        · simp [hij]
        · simp
    | @complete j hh =>
      by_cases hij : j = i
      · subst hij
        have hlt : j < sA.workers.length := get?_some_lt _ _ _ hh
        have h1 : (sA.workers.set j Phase.done).get? j = some Phase.done :=
          get?_set_self _ _ _ hlt
        have hca : countLabel (Label.acquire j) (Label.complete j :: ls)
            = countLabel (Label.acquire j) ls := by
          show countLabel (Label.acquire j) ls + _ = _
          simp
        have hcc : countLabel (Label.complete j) (Label.complete j :: ls)
            = countLabel (Label.complete j) ls + 1 := by
          show countLabel (Label.complete j) ls + _ = _
          rw [if_pos rfl]
        rcases ih with ⟨ha, hb, hc⟩ | ⟨ha, hb, hc, hd⟩ | ⟨ha, hb, hc, hd⟩ | ⟨ha, hb, hc, hd⟩
        · right; right; right
          refine ⟨hh, ?_, ?_, ?_⟩
          · rw [ha]; exact h1
          · rw [hca]; exact hb
          · rw [hcc, hc]
        · rw [h1] at ha; simp at ha
        · rw [h1] at ha; simp at ha
        · rw [h1] at ha; simp at ha
      · apply phaseBook_lift (get?_set_other _ _ _ _ hij) _ _ ih
        · simp
        · simp [hij]
    | persist hall hnp =>
      apply phaseBook_lift rfl _ _ ih
      · simp
      · simp
    | keywordUpdate hp hk =>
      apply phaseBook_lift rfl _ _ ih
      · simp
      · simp

/-- All workers of a state are done. -/
def allDone (s : IndexerState) : Prop := ∀ p ∈ s.workers, p = Phase.done

/-- Invariant: the persist flag implies every worker is done, and the
keyword-index flag implies the persist already happened. -/
def JoinInv (s : IndexerState) : Prop :=
  (s.persisted = true → allDone s) ∧ (s.keywordUpdated = true → s.persisted = true)

theorem step_joinInv {s s1 : IndexerState} {l : Label}
    (hst : Step s l s1) (h : JoinInv s) : JoinInv s1 := by
  cases hst with
  | @acquire j hp hsem =>
    constructor
    · intro hpers
      exfalso
      have hall := h.1 hpers
      have hmem : Phase.pending ∈ s.workers := get?_some_mem _ _ _ hp
      have := hall _ hmem
      simp at this
    · intro hk
      exact h.2 hk
  | @complete j hh =>
    constructor
    · intro hpers
      exfalso
      have hall := h.1 hpers
      have hmem : Phase.holding ∈ s.workers := get?_some_mem _ _ _ hh
      have := hall _ hmem
      simp at this
    · intro hk
      exact h.2 hk
  | persist hall hnp =>
    exact ⟨fun _ => hall, fun _ => rfl⟩
  | keywordUpdate hp hk =>
    exact ⟨fun hpers => h.1 hpers, fun _ => hp⟩

theorem exec_joinInv {s0 s : IndexerState} {tr : List Label}
    (hex : Exec s0 tr s) (h0 : JoinInv s0) : JoinInv s := by
  induction hex with
  | nil => exact h0
  | cons hst _ ih => exact ih (step_joinInv hst h0)

theorem initState_joinInv {α : Type} (nodes : List α) : JoinInv (initState nodes) := by
  constructor
  · intro h; simp [initState] at h
  · intro h; simp [initState] at h

theorem exec_append : ∀ (t1 : List Label) {t2 : List Label} {s0 s : IndexerState},
    Exec s0 (t1 ++ t2) s → ∃ sm, Exec s0 t1 sm ∧ Exec sm t2 s := by
  intro t1
  induction t1 with
  | nil =>
    intro t2 s0 s hex
    exact ⟨s0, Exec.nil, hex⟩
  | cons l ls ih =>
    intro t2 s0 s hex
    cases hex with
    | cons hst hrest =>
      obtain ⟨sm, h1, h2⟩ := ih hrest
      exact ⟨sm, Exec.cons hst h1, h2⟩

/-- Counts of acquire and complete events for a worker that is done at the
end of an execution started from the initial state. -/
theorem exec_done_counts {α : Type} {nodes : List α} {tr : List Label}
    {s : IndexerState} (hex : Exec (initState nodes) tr s) (i : Nat)
    (hd : s.workers.get? i = some Phase.done) :
    countLabel (Label.acquire i) tr = 1 ∧ countLabel (Label.complete i) tr = 1 := by
  have hinit : (initState nodes).workers.get? i =
      if i < numBatches nodes then some Phase.pending else none :=
    replicate_pending_get? _ _
  rcases exec_phase hex i with ⟨ha, _, _⟩ | ⟨_, hb, _, _⟩ | ⟨_, _, hc, hd'⟩ | ⟨ha, _, _, _⟩
  · rw [hd, hinit] at ha
    by_cases hi : i < numBatches nodes
    · rw [if_pos hi] at ha; simp at ha
    · rw [if_neg hi] at ha; simp at ha
  · rw [hd] at hb; simp at hb
  · exact ⟨hc, hd'⟩
  · rw [hinit] at ha
    by_cases hi : i < numBatches nodes
    · rw [if_pos hi] at ha; simp at ha
    · rw [if_neg hi] at ha; simp at ha

theorem get?_is_some_of_lt : ∀ (l : List Phase) (i : Nat), i < l.length →
    ∃ b, l.get? i = some b := by
  intro l
  induction l with
  | nil => intro i h; simp at h
  | cons x xs ih =>
    intro i h
    cases i with
    | zero => exact ⟨x, rfl⟩
    | succ j =>
      simp only [List.length_cons] at h
      exact ih j (by omega)

/-- All events of the insertion phase observed by the C2 claim: the batch
decomposition facts, at most one insertion call per batch, exactly one
insertion call and one completion per batch once the persist happened, and
the persist and keyword-index update occurring only after every batch has
completed its insertion. -/
def InsertionSpec {α : Type} (nodes : List α) (tr : List Label)
    (s : IndexerState) : Prop :=
  (iter_batch nodes 100).flatten = nodes
  ∧ (∀ b ∈ iter_batch nodes 100, b ≠ [] ∧ b.length ≤ 100)
  ∧ (∀ i, i + 1 < numBatches nodes →
      ∃ b, (iter_batch nodes 100).get? i = some b ∧ b.length = 100)
  ∧ (∀ i, countLabel (Label.acquire i) tr ≤ 1)
  ∧ (s.persisted = true → ∀ i, i < numBatches nodes →
      countLabel (Label.acquire i) tr = 1 ∧ countLabel (Label.complete i) tr = 1)
  ∧ (∀ t1 l t2, tr = t1 ++ l :: t2 → l = Label.persist ∨ l = Label.keywordUpdate →
      ∀ i, i < numBatches nodes → Label.complete i ∈ t1)

/-- C2: in every execution of the asynchronous insert, the nodes are
partitioned in order into batches of exactly 100 (the last batch possibly
smaller), each batch issues at most one insertion call, a persisted state
means every batch issued exactly one insertion call and completed it, and
the storage-context persist and keyword-index update can only occur in the
trace after every batch completed its insertion (full join). -/
theorem C2_batched_insert {α : Type} (nodes : List α) (tr : List Label)
    (s : IndexerState) (hex : Exec (initState nodes) tr s) :
    InsertionSpec nodes tr s := by
  have hlen : s.workers.length = numBatches nodes := by
    rw [exec_workers_length hex]
    simp [initState]
  refine ⟨iter_batch_join (by omega) nodes, iter_batch_mem (by omega) nodes,
    iter_batch_full (by omega) nodes, ?_, ?_, ?_⟩
  · intro i
    rcases exec_phase hex i with ⟨_, hb, _⟩ | ⟨_, _, hc, _⟩ | ⟨_, _, hc, _⟩ | ⟨_, _, hc, _⟩
      <;> omega
  · intro hpers i hi
    have hinv := exec_joinInv hex (initState_joinInv nodes)
    have hall := hinv.1 hpers
    obtain ⟨b, hb⟩ := get?_is_some_of_lt s.workers i (by omega)
    have hbd : b = Phase.done := hall b (get?_some_mem _ _ _ hb)
    rw [hbd] at hb
    exact exec_done_counts hex i hb
  · intro t1 l t2 htr hl i hi
    subst htr
    obtain ⟨sm, hex1, hex2⟩ := exec_append t1 hex
    have hmdone : allDone sm := by
      cases hex2 with
      | cons hst hrest =>
        rcases hl with hl | hl
        · subst hl
          cases hst with
          | persist hall hnp => exact hall
        · subst hl
          cases hst with
          | keywordUpdate hp hk =>
            exact (exec_joinInv hex1 (initState_joinInv nodes)).1 hp
    have hlen1 : sm.workers.length = numBatches nodes := by
      rw [exec_workers_length hex1]
      simp [initState]
    obtain ⟨b, hb⟩ := get?_is_some_of_lt sm.workers i (by omega)
    have hbd : b = Phase.done := hmdone b (get?_some_mem _ _ _ hb)
    rw [hbd] at hb
    have := (exec_done_counts hex1 i hb).2
    exact countLabel_pos_mem t1 _ (by omega)

/-- The semaphore facts observed by the C3 claim: at most 10 batches in
flight, every insertion call start takes one slot and is only enabled when
a slot is free, and no insertion can start while 10 are in flight. -/
def SemaphoreSpec (s : IndexerState) : Prop :=
  inFlight s ≤ 10
  ∧ (∀ i s1, Step s (Label.acquire i) s1 → inFlight s < 10 ∧ inFlight s1 = inFlight s + 1)
  ∧ (inFlight s = 10 → ∀ i s1, ¬ Step s (Label.acquire i) s1)

/-- C3: in every reachable state of an asynchronous insert, at most 10
batches are in flight against the vector-store backend; acquiring the
semaphore (issuing a batch insertion) is only possible while fewer than 10
are in flight, so further batches wait until a slot frees. -/
theorem C3_semaphore_bound {α : Type} (nodes : List α) (tr : List Label)
    (s : IndexerState) (hex : Exec (initState nodes) tr s) : SemaphoreSpec s := by
  have h0 : inFlight (initState nodes) ≤ 10 := by
    show countHolding (List.replicate (numBatches nodes) Phase.pending) ≤ 10
    rw [countHolding_replicate_pending]
    omega
  refine ⟨exec_inFlight_le hex h0, ?_, ?_⟩
  · intro i s1 hst
    cases hst with
    | acquire hp hsem =>
      refine ⟨hsem, ?_⟩
      show countHolding (s.workers.set i Phase.holding) = inFlight s + 1
      rw [countHolding_set_acquire _ _ hp]
      rfl
  · intro h10 i s1 hst
    cases hst with
    | acquire hp hsem =>
      rw [h10] at hsem
      exact absurd hsem (by omega)

/-- C2 witness: 25 nodes form exactly one batch; the execution acquires
once, completes once, persists and updates the keyword index. -/
theorem C2_batched_insert_witness :
    Exec (initState (List.replicate 25 (0 : Nat)))
      [Label.acquire 0, Label.complete 0, Label.persist, Label.keywordUpdate]
      ⟨[Phase.done], true, true⟩
    ∧ InsertionSpec (List.replicate 25 (0 : Nat))
      [Label.acquire 0, Label.complete 0, Label.persist, Label.keywordUpdate]
      ⟨[Phase.done], true, true⟩ := by
  have hib : iter_batch (List.replicate 25 (0 : Nat)) 100 = [List.replicate 25 0] :=
    iter_batch_small _ _ (by simp) (by omega) (by simp)
  have hnb : numBatches (List.replicate 25 (0 : Nat)) = 1 := by
    rw [numBatches, hib]
    rfl
  have hinit : initState (List.replicate 25 (0 : Nat)) =
      ⟨[Phase.pending], false, false⟩ := by
    show (⟨List.replicate (numBatches (List.replicate 25 (0 : Nat))) Phase.pending,
      false, false⟩ : IndexerState) = ⟨[Phase.pending], false, false⟩
    rw [hnb]
    rfl
  have hexW : Exec (initState (List.replicate 25 (0 : Nat)))
      [Label.acquire 0, Label.complete 0, Label.persist, Label.keywordUpdate]
      ⟨[Phase.done], true, true⟩ := by
    rw [hinit]
    refine Exec.cons (Step.acquire (i := 0) rfl ?_) ?_
    · show countHolding [Phase.pending] < 10
      show (0 : Nat) < 10
      omega
    · refine Exec.cons (Step.complete (i := 0) rfl) ?_
      refine Exec.cons (Step.persist ?_ rfl) ?_
      · decide
      · exact Exec.cons (Step.keywordUpdate rfl rfl) Exec.nil
  exact ⟨hexW, C2_batched_insert _ _ _ hexW⟩

/-- C3 witness: the initial state of an insert of the empty node list. -/
theorem C3_semaphore_bound_witness :
    Exec (initState ([] : List Nat)) [] (initState ([] : List Nat))
    ∧ SemaphoreSpec (initState ([] : List Nat)) :=
  ⟨Exec.nil, C3_semaphore_bound ([] : List Nat) [] _ Exec.nil⟩

/-! ## Task status ledger (`RagService.add_knowledge_async`,
`RagService.get_task_status`)

The ledger is a file of tab-separated, newline-terminated lines.  The code
manipulates the lines as Python strings (startswith, strip, split on tab),
so the embedding works with lists of characters.  Python str.strip()
removes leading and trailing whitespace; single-character str.replace is a
character map. -/

/-- Python single-character replace. -/
def pyReplaceChar (l : Chars) (c r : Char) : Chars :=
  l.map (fun x => if x = c then r else x)

/-- The sanitized failure detail of `add_knowledge_async`:
detail read from the exception and its cause, with tabs and newlines
replaced by spaces. -/
def failDetail (exMsg causeMsg : Chars) : Chars :=
  pyReplaceChar (pyReplaceChar (exMsg ++ (':' :: ' ' :: causeMsg)) '\t' ' ') '\n' ' '

/-- Python str.split on the tab character (keeps empty fields, and the
split of the empty string is one empty field). -/
def splitOnTab : Chars → List Chars
  | [] => [[]]
  | c :: cs =>
    match splitOnTab cs with
    | [] => [[]]
    | h :: t => if c = '\t' then [] :: h :: t else (c :: h) :: t

/-- Whitespace as stripped by str.strip (the characters that occur in the
ledger are covered by Char.isWhitespace). -/
def isWs (c : Char) : Bool := c.isWhitespace

/-- Python str.strip(): drop leading and trailing whitespace. -/
def pyStrip (l : Chars) : Chars :=
  ((l.dropWhile isWs).reverse.dropWhile isWs).reverse

/-- Drop trailing whitespace only. -/
def stripTrailingWs (l : Chars) : Chars :=
  (l.reverse.dropWhile isWs).reverse

/-- Python str.startswith: second argument the candidate front of the
first. -/
def startsWithChars : Chars → Chars → Bool
  | _, [] => true
  | [], _ :: _ => false
  | c :: cs, p :: ps => c = p && startsWithChars cs ps

/-- Field extraction of `get_task_status` on one matching line:
parts = line.strip().split tab; status = parts[1]; detail = parts[2] when
there are exactly three fields.  Every line the service writes contains a
tab, so parts always has a second field; the default [] is never reached
on those lines. -/
def parseLine (line : Chars) : String × Option String :=
  let parts := splitOnTab (pyStrip line)
  (String.mk ((parts.get? 1).getD []),
   if parts.length = 3 then (parts.get? 2).map String.mk else none)

/-- Identifier field of a ledger line (first tab-separated field after
strip); used to state what record a line belongs to. -/
def lineId (line : Chars) : Chars := (splitOnTab (pyStrip line)).headD []

/-- `RagService.get_task_status`: bare string "unknown" when the ledger
file does not exist (the Python function returns a lone string there, not
a pair); otherwise scan the lines from the end and return the parse of the
first line that STARTS WITH the queried identifier, or (unknown, none)
when no line matches. -/
def get_task_status (log : Option (List Chars)) (task_id : Chars) :
    Sum String (String × Option String) :=
  match log with
  | none => Sum.inl "unknown"
  | some lines =>
    match lines.reverse.find? (fun line => startsWithChars line task_id) with
    | none => Sum.inr ("unknown", none)
    | some line => Sum.inr (parseLine line)

/-- Outcome of the downstream `rag.aload_knowledge` call. -/
inductive LoadOutcome
  | ok
  | err (exMsg causeMsg : Chars)

/-- What an invocation of `add_knowledge_async` raises: the unhandled
exception of the initial `check_updates`, or the wrapping `UserInputError`
of the except branch. -/
inductive RaisedErr
  | fromConfig
  | userInput (msg : String)
deriving DecidableEq, Repr

/-- Result of one `add_knowledge_async` invocation: the ledger lines it
appended, in order, and what it raised (if anything). -/
structure IngestResult where
  appended : List Chars
  raised : Option RaisedErr
deriving DecidableEq, Repr

/-- `RagService.add_knowledge_async`: run `check_updates` (whose failure
propagates before anything is appended), append the processing line, run
the load, then append either the completed line or the failed line with
the sanitized detail, re-raising a user-facing error.  The failed line is
appended before the error is re-raised. -/
def add_knowledge_async (configOk : Bool) (task_id : Chars)
    (load : LoadOutcome) : IngestResult :=
  if configOk = false then ⟨[], some RaisedErr.fromConfig⟩
  else
    match load with
    | LoadOutcome.ok =>
      ⟨[task_id ++ "\tprocessing\n".data, task_id ++ "\tcompleted\n".data], none⟩
    | LoadOutcome.err e m =>
      let detail := failDetail e m
      ⟨[task_id ++ "\tprocessing\n".data,
        task_id ++ "\tfailed\t".data ++ detail ++ "\n".data],
       some (RaisedErr.userInput ("Upload knowledge failed: " ++ String.mk e))⟩

theorem startsWithChars_nil (r : Chars) : startsWithChars r [] = true := by
  cases r <;> rfl

theorem startsWithChars_append (t r : Chars) : startsWithChars (t ++ r) t = true := by
  induction t with
  | nil => exact startsWithChars_nil r
  | cons c cs ih => simp [startsWithChars, ih]

theorem dropWhile_cons_false (p : Char → Bool) (x : Char) (xs : Chars)
    (h : p x = false) : (x :: xs).dropWhile p = x :: xs := by
  simp [List.dropWhile_cons, h]

theorem dropWhile_append_of_exists (p : Char → Bool) :
    ∀ (u v : Chars), (∃ x ∈ u, p x = false) →
    (u ++ v).dropWhile p = u.dropWhile p ++ v := by
  intro u
  induction u with
  | nil => intro v h; simp at h
  | cons c cs ih =>
    intro v h
    cases hc : p c with
    | true =>
      have h2 : ∃ x ∈ cs, p x = false := by
        rcases h with ⟨x, hx, hpx⟩
        rcases List.mem_cons.mp hx with hx1 | hx2
        · rw [hx1, hc] at hpx; cases hpx
        · exact ⟨x, hx2, hpx⟩
      simp [List.dropWhile_cons, hc, ih v h2]
    | false => simp [List.dropWhile_cons, hc]

theorem pyStrip_cons (c : Char) (cs : Chars) (h : isWs c = false) :
    pyStrip (c :: cs) = stripTrailingWs (c :: cs) := by
  rw [pyStrip, stripTrailingWs, dropWhile_cons_false _ _ _ h]

theorem stripTrailingWs_append (u v : Chars) (hv : ∃ x ∈ v, isWs x = false) :
    stripTrailingWs (u ++ v) = u ++ stripTrailingWs v := by
  rw [stripTrailingWs, stripTrailingWs, List.reverse_append]
  rw [dropWhile_append_of_exists _ _ _
    (by rcases hv with ⟨x, hx, hpx⟩; exact ⟨x, List.mem_reverse.mpr hx, hpx⟩)]
  rw [List.reverse_append, List.reverse_reverse]

theorem stripTrailingWs_ws_last (d : Chars) (c : Char) (hc : isWs c = true) :
    stripTrailingWs (d ++ [c]) = stripTrailingWs d := by
  rw [stripTrailingWs, stripTrailingWs, List.reverse_append]
  simp [List.dropWhile_cons, hc]

theorem dropWhile_mem (p : Char → Bool) :
    ∀ (l : Chars) (x : Char), x ∈ l.dropWhile p → x ∈ l := by
  intro l
  induction l with
  | nil => intro x hx; simp at hx
  | cons c cs ih =>
    intro x hx
    cases hc : p c with
    | true =>
      simp only [List.dropWhile_cons, hc, if_true] at hx
      exact List.mem_cons_of_mem _ (ih x hx)
    | false =>
      simp only [List.dropWhile_cons, hc] at hx
      simp only [Bool.false_eq_true, if_false] at hx
      exact hx

theorem stripTrailingWs_subset (d : Chars) :
    ∀ x ∈ stripTrailingWs d, x ∈ d := by
  intro x hx
  rw [stripTrailingWs] at hx
  have h1 := List.mem_reverse.mp hx
  exact List.mem_reverse.mp (dropWhile_mem isWs d.reverse x h1)

theorem splitOnTab_ne_nil (l : Chars) : splitOnTab l ≠ [] := by
  cases l with
  | nil => simp [splitOnTab]
  | cons c cs =>
    simp only [splitOnTab]
    cases hs : splitOnTab cs with
    | nil => simp
    | cons h t => by_cases hc : c = '\t' <;> simp [hc]

theorem splitOnTab_no_tab (l : Chars) (h : ∀ x ∈ l, x ≠ '\t') :
    splitOnTab l = [l] := by
  induction l with
  | nil => rfl
  | cons c cs ih =>
    have hcs := ih (fun x hx => h x (List.mem_cons_of_mem _ hx))
    have hc := h c (List.mem_cons_self _ _)
    simp [splitOnTab, hcs, hc]

theorem splitOnTab_append (a : Chars) (rest : Chars) (h : ∀ x ∈ a, x ≠ '\t') :
    splitOnTab (a ++ '\t' :: rest) = a :: splitOnTab rest := by
  induction a with
  | nil =>
    simp only [List.nil_append, splitOnTab]
    cases hs : splitOnTab rest with
    | nil => exact absurd hs (splitOnTab_ne_nil rest)
    | cons hh tt => simp
  | cons c cs ih =>
    have hcs := ih (fun x hx => h x (List.mem_cons_of_mem _ hx))
    have hc := h c (List.mem_cons_self _ _)
    simp only [List.cons_append, splitOnTab, List.append_eq]
    rw [hcs]
    simp [hc]

theorem replace_ne (c r w : Char) (hr : r ≠ c) : (if w = c then r else w) ≠ c := by
  by_cases hw : w = c
  · rw [if_pos hw]; exact hr
  · rw [if_neg hw]; exact hw

theorem replace_pres_ne (c r w d : Char) (hw : w ≠ d) (hr : r ≠ d) :
    (if w = c then r else w) ≠ d := by
  by_cases h : w = c
  · rw [if_pos h]; exact hr
  · rw [if_neg h]; exact hw

/-- The sanitized detail is never empty and carries neither a tab nor a
newline, and always contains the non-whitespace colon separator. -/
theorem failDetail_props (e m : Chars) :
    failDetail e m ≠ []
    ∧ (∀ x ∈ failDetail e m, x ≠ '\t')
    ∧ (∀ x ∈ failDetail e m, x ≠ '\n')
    ∧ (∃ x ∈ failDetail e m, isWs x = false) := by
  refine ⟨?_, ?_, ?_, ?_⟩
  · simp [failDetail, pyReplaceChar]
  · intro x hx
    simp only [failDetail, pyReplaceChar, List.mem_map] at hx
    obtain ⟨y, ⟨z, hz, hfy⟩, hfx⟩ := hx
    rw [← hfx, ← hfy]
    exact replace_pres_ne '\n' ' ' _ '\t' (replace_ne '\t' ' ' z (by decide)) (by decide)
  · intro x hx
    simp only [failDetail, pyReplaceChar, List.mem_map] at hx
    obtain ⟨y, ⟨z, hz, hfy⟩, hfx⟩ := hx
    rw [← hfx]
    exact replace_ne '\n' ' ' y (by decide)
  · refine ⟨':', ?_, by decide⟩
    simp only [failDetail, pyReplaceChar, List.mem_map]
    refine ⟨':', ⟨':', ?_, by decide⟩, by decide⟩
    exact List.mem_append_right _ (List.mem_cons_self _ _)

/-- Identifiers free of whitespace are in particular free of tabs. -/
theorem tid_no_tab (tid : Chars) (hws : ∀ ch ∈ tid, isWs ch = false) :
    ∀ x ∈ tid, x ≠ '\t' := by
  intro x hx he
  have h := hws x hx
  rw [he] at h
  exact absurd h (by decide)

/-- Stripping a line whose head is not whitespace and whose tail segment d
is followed only by the final newline. -/
theorem pyStrip_line (t0 : Char) (u d : Chars) (ht0 : isWs t0 = false)
    (hd : ∃ x ∈ d, isWs x = false) :
    pyStrip ((t0 :: u) ++ (d ++ ['\n'])) = (t0 :: u) ++ stripTrailingWs d := by
  rw [List.cons_append, pyStrip_cons _ _ ht0, ← List.cons_append]
  rw [stripTrailingWs_append _ _
    (by rcases hd with ⟨x, hx, hpx⟩; exact ⟨x, List.mem_append_left _ hx, hpx⟩)]
  rw [stripTrailingWs_ws_last d '\n' (by decide)]

/-- Parse of a two-field ledger line (processing / completed). -/
theorem parseLine_two_fields (tid mid : Chars)
    (h0 : tid ≠ []) (hws : ∀ ch ∈ tid, isWs ch = false)
    (hmid : ∀ x ∈ mid, x ≠ '\t')
    (hmws : ∃ x ∈ mid, isWs x = false)
    (hmstrip : stripTrailingWs mid = mid) :
    parseLine (tid ++ '\t' :: (mid ++ ['\n'])) = (String.mk mid, none) := by
  obtain ⟨t0, tid', rfl⟩ : ∃ t0 tid', tid = t0 :: tid' := by
    cases tid with
    | nil => exact absurd rfl h0
    | cons a b => exact ⟨a, b, rfl⟩
  have ht0 : isWs t0 = false := hws t0 (List.mem_cons_self _ _)
  have hsh : (t0 :: tid') ++ '\t' :: (mid ++ ['\n']) =
      (t0 :: (tid' ++ ['\t'])) ++ (mid ++ ['\n']) := by simp
  have hstrip : pyStrip ((t0 :: tid') ++ '\t' :: (mid ++ ['\n']))
      = (t0 :: tid') ++ '\t' :: mid := by
    rw [hsh, pyStrip_line t0 _ mid ht0 hmws, hmstrip]
    simp
  have hparts : splitOnTab (pyStrip ((t0 :: tid') ++ '\t' :: (mid ++ ['\n'])))
      = [t0 :: tid', mid] := by
    rw [hstrip, splitOnTab_append _ _ (tid_no_tab _ hws), splitOnTab_no_tab _ hmid]
  simp only [parseLine]
  rw [hparts]
  simp

/-- Parse of a three-field ledger line (failed with detail). -/
theorem parseLine_three_fields (tid mid d : Chars)
    (h0 : tid ≠ []) (hws : ∀ ch ∈ tid, isWs ch = false)
    (hmid : ∀ x ∈ mid, x ≠ '\t')
    (hdtab : ∀ x ∈ d, x ≠ '\t')
    (hdws : ∃ x ∈ d, isWs x = false) :
    parseLine (tid ++ '\t' :: (mid ++ '\t' :: (d ++ ['\n']))) =
      (String.mk mid, some (String.mk (stripTrailingWs d))) := by
  obtain ⟨t0, tid', rfl⟩ : ∃ t0 tid', tid = t0 :: tid' := by
    cases tid with
    | nil => exact absurd rfl h0
    | cons a b => exact ⟨a, b, rfl⟩
  have ht0 : isWs t0 = false := hws t0 (List.mem_cons_self _ _)
  have hsh : (t0 :: tid') ++ '\t' :: (mid ++ '\t' :: (d ++ ['\n'])) =
      (t0 :: (tid' ++ '\t' :: (mid ++ ['\t']))) ++ (d ++ ['\n']) := by simp
  have hstrip : pyStrip ((t0 :: tid') ++ '\t' :: (mid ++ '\t' :: (d ++ ['\n'])))
      = (t0 :: tid') ++ '\t' :: (mid ++ '\t' :: stripTrailingWs d) := by
    rw [hsh, pyStrip_line t0 _ d ht0 hdws]
    simp
  have hparts : splitOnTab (pyStrip ((t0 :: tid') ++ '\t' :: (mid ++ '\t' :: (d ++ ['\n']))))
      = [t0 :: tid', mid, stripTrailingWs d] := by
    rw [hstrip, splitOnTab_append _ _ (tid_no_tab _ hws), splitOnTab_append mid _ hmid,
      splitOnTab_no_tab _ (fun x hx => hdtab x (stripTrailingWs_subset d x hx))]
  simp only [parseLine]
  rw [hparts]
  simp

theorem find?_append_none (p : Chars → Bool) :
    ∀ (a b : List Chars), (∀ x ∈ a, p x = false) → (a ++ b).find? p = b.find? p := by
  intro a
  induction a with
  | nil => intro b h; rfl
  | cons x xs ih =>
    intro b h
    have hx := h x (List.mem_cons_self _ _)
    rw [List.cons_append, List.find?_cons_of_neg _ (by simp [hx])]
    exact ih b (fun y hy => h y (List.mem_cons_of_mem _ hy))

theorem get_task_status_found (lines : List Chars) (tid line : Chars)
    (h : lines.reverse.find? (fun l2 => startsWithChars l2 tid) = some line) :
    get_task_status (some lines) tid = Sum.inr (parseLine line) := by
  simp only [get_task_status, h]

theorem get_task_status_not_found (lines : List Chars) (tid : Chars)
    (h : lines.reverse.find? (fun l2 => startsWithChars l2 tid) = none) :
    get_task_status (some lines) tid = Sum.inr ("unknown", none) := by
  simp only [get_task_status, h]

/-- What a failing ingestion leaves behind (conclusion of the amended C4
claim): a sanitized non-empty tab/newline-free detail, the failed line
appended after the processing line, a user-facing error re-raised, and a
subsequent status lookup answering failed with the detail stripped of
trailing whitespace. -/
def FailedIngestSpec (log : List Chars) (tid e m : Chars) : Prop :=
  (failDetail e m ≠ []
    ∧ (∀ x ∈ failDetail e m, x ≠ '\t')
    ∧ (∀ x ∈ failDetail e m, x ≠ '\n'))
  ∧ (add_knowledge_async true tid (LoadOutcome.err e m)).appended
      = [tid ++ "\tprocessing\n".data,
         tid ++ "\tfailed\t".data ++ failDetail e m ++ "\n".data]
  ∧ (∃ msg, (add_knowledge_async true tid (LoadOutcome.err e m)).raised
      = some (RaisedErr.userInput msg))
  ∧ get_task_status
      (some (log ++ (add_knowledge_async true tid (LoadOutcome.err e m)).appended)) tid
    = Sum.inr ("failed", some (String.mk (stripTrailingWs (failDetail e m))))

/-- C4 counterexample to the claim as stated: for the exception message
boom with cause message ending in a newline, the appended sanitized detail
ends in a space, and the status lookup returns the detail with that
trailing space stripped by line.strip(), hence NOT the appended detail. -/
theorem C4_counterexample :
    failDetail "boom".data "disk\n".data = "boom: disk ".data
    ∧ get_task_status
        (some (add_knowledge_async true "t1".data
          (LoadOutcome.err "boom".data "disk\n".data)).appended) "t1".data
      = Sum.inr ("failed", some "boom: disk")
    ∧ ("boom: disk" : String) ≠ "boom: disk " := by
  refine ⟨by decide, by decide, by decide⟩

/-- C4 (amended): for every ingestion invocation that raises after the
processing record was appended, a failed record for that identifier with a
non-empty detail containing no tab and no newline is appended before the
error is re-raised as a user-facing error; the final status lookup for
that identifier then returns failed with that detail stripped of trailing
whitespace (equal to the appended detail whenever it does not end in
whitespace).  Identifiers are assumed non-empty and whitespace-free, as
the uuid hex identifiers of the upload endpoint are. -/
theorem C4_failed_status (log : List Chars) (tid e m : Chars)
    (h0 : tid ≠ []) (hws : ∀ ch ∈ tid, isWs ch = false) :
    FailedIngestSpec log tid e m := by
  obtain ⟨hne, htab, hnl, hwsd⟩ := failDetail_props e m
  refine ⟨⟨hne, htab, hnl⟩, rfl, ⟨_, rfl⟩, ?_⟩
  have hrev : (log ++ (add_knowledge_async true tid (LoadOutcome.err e m)).appended).reverse
      = (tid ++ "\tfailed\t".data ++ failDetail e m ++ "\n".data)
        :: (tid ++ "\tprocessing\n".data) :: log.reverse := by
    show (log ++ [tid ++ "\tprocessing\n".data,
      tid ++ "\tfailed\t".data ++ failDetail e m ++ "\n".data]).reverse = _
    rw [List.reverse_append]
    rfl
  have hpos : startsWithChars
      (tid ++ "\tfailed\t".data ++ failDetail e m ++ "\n".data) tid = true := by
    have hx : tid ++ "\tfailed\t".data ++ failDetail e m ++ "\n".data
        = tid ++ ("\tfailed\t".data ++ (failDetail e m ++ "\n".data)) := by simp
    rw [hx]
    exact startsWithChars_append _ _
  have hshape : tid ++ "\tfailed\t".data ++ failDetail e m ++ "\n".data
      = tid ++ '\t' :: ("failed".data ++ '\t' :: (failDetail e m ++ ['\n'])) := by
    have h1 : "\tfailed\t".data = '\t' :: ("failed".data ++ ['\t']) := by decide
    rw [h1]
    simp
  have hfind : (log ++ (add_knowledge_async true tid (LoadOutcome.err e m)).appended).reverse.find?
      (fun l2 => startsWithChars l2 tid)
      = some (tid ++ "\tfailed\t".data ++ failDetail e m ++ "\n".data) := by
    rw [hrev]
    exact List.find?_cons_of_pos _ hpos
  rw [get_task_status_found _ _ _ hfind, hshape,
    parseLine_three_fields tid "failed".data (failDetail e m) h0 hws (by decide) htab hwsd]

/-- C4 witness: the amended claim evaluated at identifier t1, exception
message boom, cause message x, on an empty prior ledger. -/
theorem C4_failed_status_witness :
    ("t1".data ≠ ([] : Chars))
    ∧ (∀ ch ∈ ("t1".data : Chars), isWs ch = false)
    ∧ FailedIngestSpec [] "t1".data "boom".data "x".data := by
  refine ⟨by decide, by decide, ?_⟩
  exact C4_failed_status [] "t1".data "boom".data "x".data (by decide) (by decide)

/-- C5 counterexample to the claim as stated: the ledger holds a completed
record for identifier a followed by a processing record for identifier ab.
The most recently appended record whose identifier EQUALS a is the first
line, whose status is completed, but the lookup for a returns processing
because line.startswith matches the ab line by prefix. -/
theorem C5_counterexample :
    get_task_status (some ["a\tcompleted\n".data, "ab\tprocessing\n".data]) "a".data
      = Sum.inr ("processing", none)
    ∧ lineId "a\tcompleted\n".data = "a".data
    ∧ lineId "ab\tprocessing\n".data = "ab".data
    ∧ ("ab".data : Chars) ≠ "a".data
    ∧ parseLine "a\tcompleted\n".data = ("completed", none) := by
  refine ⟨by decide, by decide, by decide, by decide, by decide⟩

/-- C5 (amended): the status lookup scans the ledger backward and returns
the parse of the most recently appended line that STARTS WITH the queried
identifier (a prefix match on the raw line, so a record of an identifier
extending the queried one also matches); it returns unknown with no detail
when the ledger exists but no line matches, and the bare string unknown
when the ledger file does not exist. -/
theorem C5_latest_status (lines t1l t2l : List Chars) (l tid : Chars) :
    get_task_status none tid = Sum.inl "unknown"
    ∧ ((∀ x ∈ lines, startsWithChars x tid = false) →
        get_task_status (some lines) tid = Sum.inr ("unknown", none))
    ∧ (startsWithChars l tid = true → (∀ x ∈ t2l, startsWithChars x tid = false) →
        get_task_status (some (t1l ++ l :: t2l)) tid = Sum.inr (parseLine l)) := by
  refine ⟨rfl, ?_, ?_⟩
  · intro hall
    apply get_task_status_not_found
    rw [List.find?_eq_none]
    intro x hx
    simp [hall x (List.mem_reverse.mp hx)]
  · intro hl ht2
    apply get_task_status_found
    have hrev : (t1l ++ l :: t2l).reverse = t2l.reverse ++ l :: t1l.reverse := by
      simp
    rw [hrev, find?_append_none _ _ _ (fun x hx => ht2 x (List.mem_reverse.mp hx))]
    exact List.find?_cons_of_pos _ hl

/-- C5 witness: a one-line ledger whose line starts with the queried
identifier, and the empty-ledger and missing-file cases. -/
theorem C5_latest_status_witness :
    get_task_status none "a".data = Sum.inl "unknown"
    ∧ get_task_status (some []) "a".data = Sum.inr ("unknown", none)
    ∧ get_task_status (some ([] ++ "a\tcompleted\n".data :: [])) "a".data
        = Sum.inr (parseLine "a\tcompleted\n".data) := by
  have h := C5_latest_status [] [] [] "a\tcompleted\n".data "a".data
  exact ⟨h.1, h.2.1 (by decide), h.2.2 (by decide) (by decide)⟩

/-- The records an ingestion invocation appends (conclusion of the amended
C6 claim). -/
def IngestRecordSpec (tid e m : Chars) : Prop :=
  (add_knowledge_async true tid LoadOutcome.ok).appended
      = [tid ++ "\tprocessing\n".data, tid ++ "\tcompleted\n".data]
  ∧ (add_knowledge_async true tid LoadOutcome.ok).raised = none
  ∧ (add_knowledge_async true tid (LoadOutcome.err e m)).appended
      = [tid ++ "\tprocessing\n".data,
         tid ++ "\tfailed\t".data ++ failDetail e m ++ "\n".data]
  ∧ (add_knowledge_async false tid LoadOutcome.ok).appended = []
  ∧ (add_knowledge_async false tid (LoadOutcome.err e m)).appended = []
  ∧ (tid ≠ [] → (∀ ch ∈ tid, isWs ch = false) →
      parseLine (tid ++ "\tcompleted\n".data) = ("completed", none))

/-- C6 counterexample to the claim as stated: an invocation whose initial
configuration check raises appends no records at all, in particular not a
processing record followed by a terminal record. -/
theorem C6_counterexample :
    (add_knowledge_async false "t1".data LoadOutcome.ok).appended = []
    ∧ (add_knowledge_async false "t1".data LoadOutcome.ok).appended.length ≠ 2
    ∧ (add_knowledge_async false "t1".data LoadOutcome.ok).raised
        = some RaisedErr.fromConfig := by
  refine ⟨by decide, by decide, by decide⟩

/-- C6 (amended): every ingestion invocation whose initial configuration
check succeeds appends exactly one processing record first and then
exactly one terminal record, completed with no detail on success and
failed with the sanitized detail on exception, and nothing afterwards; an
invocation whose configuration check raises appends no records. -/
theorem C6_ingest_records (tid e m : Chars) : IngestRecordSpec tid e m := by
  refine ⟨rfl, rfl, rfl, rfl, rfl, ?_⟩
  intro h0 hws
  have hsh : tid ++ "\tcompleted\n".data = tid ++ '\t' :: ("completed".data ++ ['\n']) := by
    have h1 : "\tcompleted\n".data = '\t' :: ("completed".data ++ ['\n']) := by decide
    rw [h1]
  rw [hsh, parseLine_two_fields tid "completed".data h0 hws (by decide)
    ⟨'c', by decide, by decide⟩ (by decide)]

/-- C6 witness: the amended claim evaluated at identifier t1 with the
inner hypotheses of the completed-line parse discharged. -/
theorem C6_ingest_records_witness :
    IngestRecordSpec "t1".data "boom".data "x".data
    ∧ parseLine ("t1".data ++ "\tcompleted\n".data) = ("completed", none) := by
  have h := C6_ingest_records "t1".data "boom".data "x".data
  exact ⟨h, h.2.2.2.2.2 (by decide) (by decide)⟩

/-! ## Configuration hot reload (`RagService.reload`, `RagService.check_updates`)

The service caches the serialized dict of the active configuration
(config_dict_value), the configuration object itself, and the last seen
modification time of the backing file.  check_updates compares the
modification time and calls reload on change; reload re-reads the
persisted snapshot, serializes it, and only on a content difference calls
the downstream rag.reload, swaps the cached values and persists. -/

/-- A configuration snapshot, compared by its serialized key-value
content. -/
structure RagConfig where
  dict : List (String × String)
deriving DecidableEq, Repr

/-- The configuration-relevant state of `RagService`, with an event log of
the arguments of downstream `rag.reload` calls and a count of persist
calls. -/
structure ServiceState where
  configDictValue : List (String × String)
  ragConfiguration : RagConfig
  configModifiedTime : Int
  downstreamReloads : List (List (String × String))
  persistCalls : Nat
deriving DecidableEq, Repr

/-- `RagService.reload` on the path taken by `check_updates` (no patch):
read the persisted snapshot, serialize it, and only when the serialized
content differs from the cached one call the downstream reload, swap the
cached dict and configuration, and persist. -/
def reload (s : ServiceState) (persisted : RagConfig) : ServiceState :=
  let newDict := persisted.dict
  if s.configDictValue ≠ newDict then
    { s with
      downstreamReloads := s.downstreamReloads ++ [newDict],
      configDictValue := newDict,
      ragConfiguration := persisted,
      persistCalls := s.persistCalls + 1 }
  else s

/-- `RagService.check_updates`: reload only when the modification time of
the backing file changed, then record the new modification time. -/
def check_updates (s : ServiceState) (newMtime : Int) (persisted : RagConfig) :
    ServiceState :=
  if s.configModifiedTime ≠ newMtime then
    { reload s persisted with configModifiedTime := newMtime }
  else s

/-- The no-op behaviour claimed by C7. -/
def ReloadNoopSpec (s : ServiceState) (persisted : RagConfig) (m : Int) : Prop :=
  reload s persisted = s
  ∧ (reload s persisted).downstreamReloads = s.downstreamReloads
  ∧ (check_updates s m persisted).configDictValue = s.configDictValue
  ∧ (check_updates s m persisted).ragConfiguration = s.ragConfiguration
  ∧ (check_updates s m persisted).downstreamReloads = s.downstreamReloads
  ∧ (check_updates s m persisted).persistCalls = s.persistCalls

/-- C7: when the persisted snapshot's serialized content equals the active
snapshot's cached content, a reload performs no downstream reload call and
leaves the active configuration and its cached dict (and the persist
count) unchanged, and this holds for a check_updates with ANY new
modification time, in particular one differing from the last seen one. -/
theorem C7_reload_noop (s : ServiceState) (persisted : RagConfig) (m : Int)
    (h : persisted.dict = s.configDictValue) : ReloadNoopSpec s persisted m := by
  have hr : reload s persisted = s := by
    simp [reload, h]
  refine ⟨hr, by rw [hr], ?_⟩
  have hcu : (check_updates s m persisted).configDictValue = s.configDictValue
      ∧ (check_updates s m persisted).ragConfiguration = s.ragConfiguration
      ∧ (check_updates s m persisted).downstreamReloads = s.downstreamReloads
      ∧ (check_updates s m persisted).persistCalls = s.persistCalls := by
    rw [check_updates]
    by_cases hm : s.configModifiedTime ≠ m
    · rw [if_pos hm, hr]
      exact ⟨rfl, rfl, rfl, rfl⟩
    · rw [if_neg hm]
      exact ⟨rfl, rfl, rfl, rfl⟩
  exact hcu

/-- C7 witness: identical content, modification time changed from 0 to 5. -/
theorem C7_reload_noop_witness :
    (RagConfig.mk [("k", "v")]).dict
      = (ServiceState.mk [("k", "v")] (RagConfig.mk [("k", "v")]) 0 [] 0).configDictValue
    ∧ ReloadNoopSpec (ServiceState.mk [("k", "v")] (RagConfig.mk [("k", "v")]) 0 [] 0)
        (RagConfig.mk [("k", "v")]) 5 := by
  refine ⟨rfl, ?_⟩
  exact C7_reload_noop _ _ 5 rfl

/-! ## No-op paths for empty input (`RagDataLoader.aload`,
`MyVectorStoreIndex.insert_nodes_async`) -/

/-- Observable side effects of the insertion path. -/
inductive IndexEvent
  | vectorInsert (batchSize : Nat)
  | persistStorage
  | writeIndexMetadata
  | addIndexStruct
  | keywordAdd
deriving DecidableEq, Repr

/-- Events of `insert_nodes_async`: `_async_add_nodes_to_index` returns
before batching when the node list is falsy, so no vector-store call is
made; the index-struct registration at the end of `insert_nodes_async`
runs unconditionally. -/
def insert_nodes_async_events {α : Type} (nodes : List α) : List IndexEvent :=
  (if nodes.isEmpty then []
   else (iter_batch nodes 100).map (fun b => IndexEvent.vectorInsert b.length))
  ++ [IndexEvent.addIndexStruct]

/-- Events of `RagDataLoader.aload` after `_get_nodes` returned: the
Python `if not nodes: return` covers both None (empty resolved file list)
and an empty node list; otherwise insert, persist the storage context, and
when a BM25 index is configured add the nodes to it and rewrite the
index-metadata record. -/
def aload_events {α : Type} (getNodesResult : Option (List α)) (hasBm25 : Bool) :
    List IndexEvent :=
  match getNodesResult with
  | none => []
  | some [] => []
  | some (n :: rest) =>
    insert_nodes_async_events (n :: rest) ++ [IndexEvent.persistStorage]
      ++ (if hasBm25 then [IndexEvent.keywordAdd, IndexEvent.writeIndexMetadata] else [])

/-- C8: an ingestion whose resolved input yields no files (None) or no
nodes returns as a no-op: no vector-store insertion, no storage-context
persist, no index-metadata rewrite (and no exception: both paths are plain
early returns).  An insert call on an empty node sequence makes no
vector-store call, persists nothing and rewrites no metadata record; it
only performs the in-memory index-struct registration. -/
theorem C8_empty_noop {α : Type} (hasBm25 : Bool) :
    aload_events (none : Option (List α)) hasBm25 = []
    ∧ aload_events (some ([] : List α)) hasBm25 = []
    ∧ insert_nodes_async_events ([] : List α) = [IndexEvent.addIndexStruct]
    ∧ (∀ n, IndexEvent.vectorInsert n ∉ insert_nodes_async_events ([] : List α))
    ∧ IndexEvent.persistStorage ∉ insert_nodes_async_events ([] : List α)
    ∧ IndexEvent.writeIndexMetadata ∉ insert_nodes_async_events ([] : List α) := by
  have he : insert_nodes_async_events ([] : List α) = [IndexEvent.addIndexStruct] := by
    simp [insert_nodes_async_events]
  refine ⟨rfl, rfl, he, ?_, ?_, ?_⟩
  · intro n
    rw [he]
    simp
  · rw [he]
    simp
  · rw [he]
    simp

/-- C8 witness: the empty-input paths evaluated at the Nat instantiation
with a configured keyword index. -/
theorem C8_empty_noop_witness :
    aload_events (none : Option (List Nat)) true = []
    ∧ aload_events (some ([] : List Nat)) true = []
    ∧ insert_nodes_async_events ([] : List Nat) = [IndexEvent.addIndexStruct]
    ∧ IndexEvent.persistStorage ∉ insert_nodes_async_events ([] : List Nat) := by
  have h := @C8_empty_noop Nat true
  exact ⟨h.1, h.2.1, h.2.2.1, h.2.2.2.2.1⟩

/-! ## Deterministic identifiers for chunk-free documents
(`RagDataLoader._get_nodes`, document loop) -/

/-- A raw document as returned by the external reader. -/
structure Doc where
  text : String
  metadata : List (String × String)
deriving DecidableEq, Repr

/-- os.path.splitext extension (with the dot) of a file name: the part
after the last dot, unless every character before that dot is itself a dot
(so dotfiles such as .bashrc have no extension). -/
def extOf (name : Chars) : Chars :=
  match name.reverse.findIdx? (fun c => c = '.') with
  | none => []
  | some i =>
    if (name.take (name.length - 1 - i)).all (fun c => c = '.') then []
    else '.' :: (name.reverse.take i).reverse

/-- `RagDataLoader._extract_file_type`: extension of the file_name
metadata entry, defaulting to dummy.txt. -/
def extractFileType (md : List (String × String)) : String :=
  String.mk (extOf ((dictGet md "file_name").getD "dummy.txt").data)

/-- The fixed no-chunking extension set of the loader. -/
def DOC_TYPES_DO_NOT_NEED_CHUNKING : List String :=
  [".csv", ".xlsx", ".xls", ".htm", ".html"]

def isChunkFree (d : Doc) : Bool :=
  DOC_TYPES_DO_NOT_NEED_CHUNKING.contains (extractFileType d.metadata)

/-- doc_key: the file_path metadata entry, defaulting to dummy. -/
def docKey (d : Doc) : String := (dictGet d.metadata "file_path").getD "dummy"

/-- Modelled from the spec: `node_id_hash` lives in
pai_rag/modules/nodeparser/node_parser.py, which is not among the provided
sources.  The spec states the identifier is derived deterministically from
the per-source-path sequence counter and the document, so it is embedded
as a pure function of exactly those two inputs. -/
def node_id_hash (cnt : Nat) (d : Doc) : String :=
  "id_" ++ toString cnt ++ "_" ++ docKey d ++ "_" ++ toString d.text.length

/-- Lookup in the doc_cnt_map. -/
def cntGet (m : List (String × Nat)) (k : String) : Option Nat :=
  (m.find? (fun p => p.1 = k)).map Prod.snd

/-- Update of the doc_cnt_map (dict update: replace the first binding of
the key, else append; keys are unique so this is Python dict
assignment). -/
def cntSet : List (String × Nat) → String → Nat → List (String × Nat)
  | [], k, v => [(k, v)]
  | p :: ps, k, v => if p.1 = k then (k, v) :: ps else p :: cntSet ps k v


theorem cntGet_cons_self (p : String × Nat) (ps : List (String × Nat)) (k : String)
    (h : p.1 = k) : cntGet (p :: ps) k = some p.2 := by
  rw [cntGet, List.find?_cons_of_pos _ (by simp [h])]
  rfl

theorem cntGet_cons_ne (p : String × Nat) (ps : List (String × Nat)) (k : String)
    (h : ¬ p.1 = k) : cntGet (p :: ps) k = cntGet ps k := by
  rw [cntGet, List.find?_cons_of_neg _ (by simp [h])]
  rfl

theorem cntGet_cntSet_self : ∀ (m : List (String × Nat)) (k : String) (v : Nat),
    cntGet (cntSet m k v) k = some v := by
  intro m
  induction m with
  | nil =>
    intro k v
    show cntGet [(k, v)] k = some v
    rw [cntGet_cons_self _ _ _ rfl]
  | cons p ps ih =>
    intro k v
    show cntGet (if p.1 = k then (k, v) :: ps else p :: cntSet ps k v) k = some v
    by_cases hp : p.1 = k
    · rw [if_pos hp, cntGet_cons_self _ _ _ rfl]
    · rw [if_neg hp, cntGet_cons_ne _ _ _ hp]
      exact ih k v

theorem cntGet_cntSet_other : ∀ (m : List (String × Nat)) (k k2 : String) (v : Nat),
    k ≠ k2 → cntGet (cntSet m k v) k2 = cntGet m k2 := by
  intro m
  induction m with
  | nil =>
    intro k k2 v hne
    show cntGet [(k, v)] k2 = cntGet [] k2
    rw [cntGet_cons_ne _ _ _ hne]
  | cons p ps ih =>
    intro k k2 v hne
    show cntGet (if p.1 = k then (k, v) :: ps else p :: cntSet ps k v) k2 = cntGet (p :: ps) k2
    by_cases hp : p.1 = k
    · rw [if_pos hp, cntGet_cons_ne _ _ _ hne, cntGet_cons_ne _ _ _ (by rw [hp]; exact hne)]
    · rw [if_neg hp]
      by_cases hp2 : p.1 = k2
      · rw [cntGet_cons_self _ _ _ hp2, cntGet_cons_self _ _ _ hp2]
      · rw [cntGet_cons_ne _ _ _ hp2, cntGet_cons_ne _ _ _ hp2]
        exact ih k k2 v hne

/-- The body of the document loop of `_get_nodes`, with the two external
splitters (markdown and default) as parameters and the doc_cnt_map
threaded explicitly. -/
def getNodesLoop (mdSplit defaultSplit : Doc → List TextNode) :
    List Doc → List (String × Nat) → List TextNode
  | [], _ => []
  | d :: rest, cntMap =>
    if isChunkFree d then
      let key := docKey d
      let c := (cntGet cntMap key).getD 0 + 1
      TextNode.mk (node_id_hash c d) d.text d.metadata [] []
        :: getNodesLoop mdSplit defaultSplit rest (cntSet cntMap key c)
    else if extractFileType d.metadata = ".md" then
      mdSplit d ++ getNodesLoop mdSplit defaultSplit rest cntMap
    else
      defaultSplit d ++ getNodesLoop mdSplit defaultSplit rest cntMap

/-- `_get_nodes` document loop started with the empty doc_cnt_map. -/
def getNodesFromDocs (mdSplit defaultSplit : Doc → List TextNode)
    (docs : List Doc) : List TextNode :=
  getNodesLoop mdSplit defaultSplit docs []

/-- The doc_cnt_map evolution across a document list. -/
def advanceCnt : List Doc → List (String × Nat) → List (String × Nat)
  | [], m => m
  | d :: rest, m =>
    if isChunkFree d then
      advanceCnt rest (cntSet m (docKey d) ((cntGet m (docKey d)).getD 0 + 1))
    else advanceCnt rest m

/-- Number of chunk-free documents with the given source key in a list:
the per-source ordinal a further such document would receive is this count
plus one. -/
def countKey (docs : List Doc) (key : String) : Nat :=
  (docs.filter (fun d => isChunkFree d && decide (docKey d = key))).length

theorem getNodesLoop_cons_chunkFree (mdS dS : Doc → List TextNode) (d : Doc)
    (rest : List Doc) (m : List (String × Nat)) (h : isChunkFree d = true) :
    getNodesLoop mdS dS (d :: rest) m
      = TextNode.mk (node_id_hash ((cntGet m (docKey d)).getD 0 + 1) d)
          d.text d.metadata [] []
        :: getNodesLoop mdS dS rest
             (cntSet m (docKey d) ((cntGet m (docKey d)).getD 0 + 1)) := by
  simp only [getNodesLoop, h, if_true]

theorem getNodesLoop_cons_md (mdS dS : Doc → List TextNode) (d : Doc)
    (rest : List Doc) (m : List (String × Nat)) (hcf : isChunkFree d = false)
    (hmd : extractFileType d.metadata = ".md") :
    getNodesLoop mdS dS (d :: rest) m = mdS d ++ getNodesLoop mdS dS rest m := by
  simp [getNodesLoop, hcf, hmd]

theorem getNodesLoop_cons_default (mdS dS : Doc → List TextNode) (d : Doc)
    (rest : List Doc) (m : List (String × Nat)) (hcf : isChunkFree d = false)
    (hmd : ¬ extractFileType d.metadata = ".md") :
    getNodesLoop mdS dS (d :: rest) m = dS d ++ getNodesLoop mdS dS rest m := by
  simp [getNodesLoop, hcf, hmd]

theorem advanceCnt_cons_true (d : Doc) (rest : List Doc) (m : List (String × Nat))
    (h : isChunkFree d = true) :
    advanceCnt (d :: rest) m
      = advanceCnt rest (cntSet m (docKey d) ((cntGet m (docKey d)).getD 0 + 1)) := by
  simp [advanceCnt, h]

theorem advanceCnt_cons_false (d : Doc) (rest : List Doc) (m : List (String × Nat))
    (h : isChunkFree d = false) :
    advanceCnt (d :: rest) m = advanceCnt rest m := by
  simp [advanceCnt, h]

theorem countKey_cons_true (d : Doc) (rest : List Doc) (key : String)
    (hcf : isChunkFree d = true) (hk : docKey d = key) :
    countKey (d :: rest) key = countKey rest key + 1 := by
  simp [countKey, List.filter_cons, hcf, hk]

theorem countKey_cons_skip (d : Doc) (rest : List Doc) (key : String)
    (h : isChunkFree d = false ∨ ¬ docKey d = key) :
    countKey (d :: rest) key = countKey rest key := by
  rcases h with h | h <;> simp [countKey, List.filter_cons, h]

theorem getNodesLoop_append (mdS dS : Doc → List TextNode) :
    ∀ (pre post : List Doc) (m : List (String × Nat)),
    getNodesLoop mdS dS (pre ++ post) m
      = getNodesLoop mdS dS pre m ++ getNodesLoop mdS dS post (advanceCnt pre m) := by
  intro pre
  induction pre with
  | nil => intro post m; rfl
  | cons d rest ih =>
    intro post m
    cases hcf : isChunkFree d with
    | true =>
      rw [List.cons_append,
        getNodesLoop_cons_chunkFree mdS dS d (rest ++ post) m hcf,
        getNodesLoop_cons_chunkFree mdS dS d rest m hcf,
        advanceCnt_cons_true d rest m hcf,
        ih, List.cons_append]
    | false =>
      by_cases hmd : extractFileType d.metadata = ".md"
      · rw [List.cons_append,
          getNodesLoop_cons_md mdS dS d (rest ++ post) m hcf hmd,
          getNodesLoop_cons_md mdS dS d rest m hcf hmd,
          advanceCnt_cons_false d rest m hcf,
          ih, List.append_assoc]
      · rw [List.cons_append,
          getNodesLoop_cons_default mdS dS d (rest ++ post) m hcf hmd,
          getNodesLoop_cons_default mdS dS d rest m hcf hmd,
          advanceCnt_cons_false d rest m hcf,
          ih, List.append_assoc]

theorem advanceCnt_get (key : String) :
    ∀ (docs : List Doc) (m : List (String × Nat)),
    (cntGet (advanceCnt docs m) key).getD 0
      = (cntGet m key).getD 0 + countKey docs key := by
  intro docs
  induction docs with
  | nil => intro m; simp [advanceCnt, countKey]
  | cons d rest ih =>
    intro m
    cases hcf : isChunkFree d with
    | true =>
      rw [advanceCnt_cons_true d rest m hcf, ih]
      by_cases hk : docKey d = key
      · rw [hk, cntGet_cntSet_self, countKey_cons_true d rest key hcf hk]
        simp only [Option.getD_some]
        omega
      · rw [cntGet_cntSet_other _ _ _ _ hk,
          countKey_cons_skip d rest key (Or.inr hk)]
    | false =>
      rw [advanceCnt_cons_false d rest m hcf, ih,
        countKey_cons_skip d rest key (Or.inl hcf)]

/-- C9: for a chunk-free document, the node built for an occurrence of the
document after a prefix of other documents carries the identifier
node_id_hash applied to (number of earlier chunk-free documents of the
same source key) + 1 and the document itself; two runs over possibly
different surrounding documents and splitters therefore produce the SAME
identifier for that document whenever its per-source ordinal agrees, with
no per-run randomness. -/
theorem C9_deterministic_ids (mdS1 dS1 mdS2 dS2 : Doc → List TextNode)
    (pre1 post1 pre2 post2 : List Doc) (d : Doc)
    (hcf : isChunkFree d = true)
    (hord : countKey pre1 (docKey d) = countKey pre2 (docKey d)) :
    ∃ tail1 tail2,
      getNodesFromDocs mdS1 dS1 (pre1 ++ d :: post1)
        = getNodesFromDocs mdS1 dS1 pre1
          ++ TextNode.mk (node_id_hash (countKey pre1 (docKey d) + 1) d)
               d.text d.metadata [] [] :: tail1
      ∧ getNodesFromDocs mdS2 dS2 (pre2 ++ d :: post2)
        = getNodesFromDocs mdS2 dS2 pre2
          ++ TextNode.mk (node_id_hash (countKey pre1 (docKey d) + 1) d)
               d.text d.metadata [] [] :: tail2 := by
  have hkey : ∀ (pre : List Doc),
      (cntGet (advanceCnt pre []) (docKey d)).getD 0 = countKey pre (docKey d) := by
    intro pre
    rw [advanceCnt_get]
    simp [cntGet, List.find?]
  refine ⟨getNodesLoop mdS1 dS1 post1
      (cntSet (advanceCnt pre1 []) (docKey d) (countKey pre1 (docKey d) + 1)),
    getNodesLoop mdS2 dS2 post2
      (cntSet (advanceCnt pre2 []) (docKey d) (countKey pre1 (docKey d) + 1)), ?_, ?_⟩
  · simp only [getNodesFromDocs]
    rw [getNodesLoop_append mdS1 dS1 pre1 (d :: post1) [],
      getNodesLoop_cons_chunkFree mdS1 dS1 d post1 _ hcf, hkey pre1]
  · simp only [getNodesFromDocs]
    rw [getNodesLoop_append mdS2 dS2 pre2 (d :: post2) [],
      getNodesLoop_cons_chunkFree mdS2 dS2 d post2 _ hcf, hkey pre2, ← hord]

/-- C9 witness: a single csv document at the first position of its source
path, under trivial external splitters; both runs yield the node with
identifier node_id_hash 1 d. -/
theorem C9_deterministic_ids_witness :
    isChunkFree (Doc.mk "t" [("file_name", "a.csv"), ("file_path", "p")]) = true
    ∧ (∃ tail1 tail2,
        getNodesFromDocs (fun _ => []) (fun _ => [])
            ([] ++ Doc.mk "t" [("file_name", "a.csv"), ("file_path", "p")] :: [])
          = getNodesFromDocs (fun _ => []) (fun _ => []) []
            ++ TextNode.mk
                 (node_id_hash
                   (countKey []
                     (docKey (Doc.mk "t" [("file_name", "a.csv"), ("file_path", "p")])) + 1)
                   (Doc.mk "t" [("file_name", "a.csv"), ("file_path", "p")]))
                 "t" [("file_name", "a.csv"), ("file_path", "p")] [] [] :: tail1
        ∧ getNodesFromDocs (fun _ => []) (fun _ => [])
            ([] ++ Doc.mk "t" [("file_name", "a.csv"), ("file_path", "p")] :: [])
          = getNodesFromDocs (fun _ => []) (fun _ => []) []
            ++ TextNode.mk
                 (node_id_hash
                   (countKey []
                     (docKey (Doc.mk "t" [("file_name", "a.csv"), ("file_path", "p")])) + 1)
                   (Doc.mk "t" [("file_name", "a.csv"), ("file_path", "p")]))
                 "t" [("file_name", "a.csv"), ("file_path", "p")] [] [] :: tail2) := by
  refine ⟨by decide, ?_⟩
  exact C9_deterministic_ids (fun _ => []) (fun _ => []) (fun _ => []) (fun _ => [])
    [] [] [] [] (Doc.mk "t" [("file_name", "a.csv"), ("file_path", "p")]) (by decide) rfl

/-! ## Configuration check before every operation (`RagService`)

Every public operation of the service begins with `self.check_updates()`.
Each operation is embedded as a function of the outcome of that check (and
of its own downstream work), so that the behaviour on a failing check is
captured: no own work is observable and an error propagates. -/

/-- The user-facing error taxonomy of the service layer. -/
inductive SvcError
  | service (msg : String)
  | userInput (msg : String)
deriving DecidableEq, Repr

/-- `RagService.get_config`: the config freshness check runs first; any
exception is wrapped into a ServiceError, otherwise the cached dict value
is returned. -/
def get_config (check : Except String (List (String × String))) :
    Except SvcError (List (String × String)) :=
  match check with
  | Except.error e => Except.error (SvcError.service ("Get RAG configuration failed: " ++ e))
  | Except.ok v => Except.ok v

/-- `RagService.aquery`: check first, then the query; any exception of
either is wrapped into a UserInputError. -/
def aquery {ρ : Type} (check : Except String Unit) (q : Except String ρ) :
    Except SvcError ρ :=
  match check with
  | Except.error e => Except.error (SvcError.userInput ("Query RAG failed: " ++ e))
  | Except.ok _ =>
    match q with
    | Except.error e => Except.error (SvcError.userInput ("Query RAG failed: " ++ e))
    | Except.ok r => Except.ok r

/-- `RagService.aquery_llm`: same protocol as aquery. -/
def aquery_llm {ρ : Type} (check : Except String Unit) (q : Except String ρ) :
    Except SvcError ρ :=
  match check with
  | Except.error e => Except.error (SvcError.userInput ("Query RAG failed: " ++ e))
  | Except.ok _ =>
    match q with
    | Except.error e => Except.error (SvcError.userInput ("Query RAG failed: " ++ e))
    | Except.ok r => Except.ok r

/-- `RagService.aquery_retrieval`: same protocol as aquery. -/
def aquery_retrieval {ρ : Type} (check : Except String Unit) (q : Except String ρ) :
    Except SvcError ρ :=
  match check with
  | Except.error e => Except.error (SvcError.userInput ("Query RAG failed: " ++ e))
  | Except.ok _ =>
    match q with
    | Except.error e => Except.error (SvcError.userInput ("Query RAG failed: " ++ e))
    | Except.ok r => Except.ok r

/-- `RagService.aquery_agent`: same protocol as aquery. -/
def aquery_agent {ρ : Type} (check : Except String Unit) (q : Except String ρ) :
    Except SvcError ρ :=
  match check with
  | Except.error e => Except.error (SvcError.userInput ("Query RAG failed: " ++ e))
  | Except.ok _ =>
    match q with
    | Except.error e => Except.error (SvcError.userInput ("Query RAG failed: " ++ e))
    | Except.ok r => Except.ok r

/-- `RagService.get_task_status` including its leading `check_updates`
call, which is NOT wrapped in a try block: its exception propagates raw,
so a failing check makes even a status lookup raise instead of returning a
status. -/
def get_task_status_checked (check : Except String Unit)
    (log : Option (List Chars)) (tid : Chars) :
    Except String (Sum String (String × Option String)) :=
  match check with
  | Except.error e => Except.error e
  | Except.ok _ => Except.ok (get_task_status log tid)

/-- The behaviour claimed by C10 when the configuration check fails. -/
def CheckFirstSpec (msg : String) (log : Option (List Chars)) (tid : Chars)
    (load : LoadOutcome) : Prop :=
  get_config (Except.error msg)
      = Except.error (SvcError.service ("Get RAG configuration failed: " ++ msg))
  ∧ (∀ (q : Except String Nat), aquery (Except.error msg) q
      = Except.error (SvcError.userInput ("Query RAG failed: " ++ msg)))
  ∧ (∀ (q : Except String Nat), aquery_llm (Except.error msg) q
      = Except.error (SvcError.userInput ("Query RAG failed: " ++ msg)))
  ∧ (∀ (q : Except String Nat), aquery_retrieval (Except.error msg) q
      = Except.error (SvcError.userInput ("Query RAG failed: " ++ msg)))
  ∧ (∀ (q : Except String Nat), aquery_agent (Except.error msg) q
      = Except.error (SvcError.userInput ("Query RAG failed: " ++ msg)))
  ∧ (add_knowledge_async false tid load).appended = []
  ∧ (add_knowledge_async false tid load).raised = some RaisedErr.fromConfig
  ∧ get_task_status_checked (Except.error msg) log tid = Except.error msg
  ∧ (∀ r, get_task_status_checked (Except.error msg) log tid ≠ Except.ok r)

/-- C10: every public service operation (ingestion scheduling, each query
variant, configuration read, task-status lookup) performs the
configuration freshness check before its own work: when the check fails,
get_config raises a ServiceError, the query variants raise a
UserInputError, the ingestion appends no status records and raises, and
the task-status lookup raises the check error instead of returning any
status. -/
theorem C10_check_first (msg : String) (log : Option (List Chars)) (tid : Chars)
    (load : LoadOutcome) : CheckFirstSpec msg log tid load := by
  refine ⟨rfl, fun q => rfl, fun q => rfl, fun q => rfl, fun q => rfl, ?_, ?_, rfl, ?_⟩
  · cases load <;> rfl
  · cases load <;> rfl
  · intro r h
    exact Except.noConfusion h

/-- C10 witness: the failing-check behaviour evaluated at a concrete
message, ledger and load outcome, with the query conjunct instantiated. -/
theorem C10_check_first_witness :
    CheckFirstSpec "cfg" none "t1".data LoadOutcome.ok
    ∧ aquery (Except.error "cfg") (Except.ok (0 : Nat))
        = Except.error (SvcError.userInput ("Query RAG failed: " ++ "cfg")) := by
  have h := C10_check_first "cfg" none "t1".data LoadOutcome.ok
  exact ⟨h, h.2.1 (Except.ok 0)⟩

end PaiRag
